import Mathlib

/-!
# Package `menu` (ders/menu): nested menus with visibility masks

A shallow embedding of `menu.go`.  The Go interface `ListItem` has exactly two
implementations in the package, the structs `item` and `list`; they become the
two constructors of an inductive type, so that a menu is a finite tree (the
package documentation excludes recursive menus).

An `int64` is embedded as an `Int`; the only operation the package applies to
masks is the bitwise and followed by a comparison with zero, and on values of
the `int64` range the two's complement `Int.land` is the machine operation.
-/

namespace menu

/-- The two implementations of the interface `ListItem`: the struct `item`
(fields `Lab`, `Act`, `visibility`) and the struct `list` (fields `Lab`, `Ims`,
`visibility`). -/
inductive ListItem where
  | item (Lab : String) (Act : String) (visibility : Int)
  | list (Lab : String) (Ims : List ListItem) (visibility : Int)
deriving Repr

/-- Go `strings.Repeat(s, n)` for a count `n ≥ 0`. -/
def Repeat (s : String) (n : Nat) : String :=
  String.join (List.replicate n s)

/-- Go `strings.Join(elems, sep)`. -/
def Join (elems : List String) (sep : String) : String :=
  sep.intercalate elems

namespace ListItem

/-- Methods `item.Label` and `list.Label`. -/
def Label : ListItem → String
  | item Lab _ _ => Lab
  | list Lab _ _ => Lab

/-- Methods `item.Action` and `list.Action`. -/
def Action : ListItem → String
  | item _ Act _ => Act
  | list _ _ _ => ""

/-- Methods `item.IsList` and `list.IsList`. -/
def IsList : ListItem → Bool
  | item _ _ _ => false
  | list _ _ _ => true

/-- Methods `item.Items` (the nil slice) and `list.Items`. -/
def Items : ListItem → List ListItem
  | item _ _ _ => []
  | list _ Ims _ => Ims

/-- The unexported field `visibility` of either struct. -/
def visibility : ListItem → Int
  | item _ _ v => v
  | list _ _ v => v

mutual
/-- Methods `item.IsVisible` and `list.IsVisible`. -/
def IsVisible : ListItem → Int → Bool
  | item _ _ visibility, m => Int.land m visibility != 0
  | list _ Ims visibility, m =>
    if Int.land m visibility == 0 then false else IsVisible.loop Ims m
/-- The `for _, item := range l.Ims` loop of `list.IsVisible`, which returns
`true` at the first visible element and `false` after the last one. -/
def IsVisible.loop : List ListItem → Int → Bool
  | [], _ => false
  | i :: rest, m => if IsVisible i m then true else IsVisible.loop rest m
end

mutual
/-- Methods `item.Filtered` and `list.Filtered`.  The composite literal
`&list{Lab: l.Lab, Ims: filtered}` leaves the field `visibility` at the zero
value of `int64`. -/
def Filtered : ListItem → Int → ListItem
  | item Lab Act visibility, _ => item Lab Act visibility
  | list Lab Ims _, m => list Lab (Filtered.loop Ims m) 0
/-- The `for _, item := range l.Ims` loop of `list.Filtered`, appending
`item.Filtered(m)` for each visible element. -/
def Filtered.loop : List ListItem → Int → List ListItem
  | [], _ => []
  | i :: rest, m =>
    if IsVisible i m then Filtered i m :: Filtered.loop rest m
    else Filtered.loop rest m
end

mutual
/-- Methods `item.IndentedString` and `list.IndentedString`, for an indent
`n ≥ 0` (`strings.Repeat` panics on a negative count).  In the item case the
call `i.String()` is written out as `i.Lab + ": " + i.Act`. -/
def IndentedString : ListItem → Nat → String
  | item Lab Act _, n => Repeat "\t" n ++ (Lab ++ ": " ++ Act)
  | list Lab Ims _, n => Join ((Repeat "\t" n ++ Lab) :: IndentedString.loop Ims n) "\n"
/-- The loop of `list.IndentedString`, collecting `item.IndentedString(n+1)`. -/
def IndentedString.loop : List ListItem → Nat → List String
  | [], _ => []
  | i :: rest, n => IndentedString i (n + 1) :: IndentedString.loop rest n
end

end ListItem

/-- Methods `item.String` and `list.String`. -/
def ListItem.String : ListItem → String
  | .item Lab Act _ => Lab ++ ": " ++ Act
  | .list Lab Ims v => (ListItem.list Lab Ims v).IndentedString 0

/-- Constructor `NewList`. -/
def NewList (label : String) (items : List ListItem) : ListItem :=
  .list label items (-1)

/-- Constructor `NewListMask`. -/
def NewListMask (label : String) (items : List ListItem) (visibility : Int) : ListItem :=
  .list label items visibility

/-- Constructor `NewItem`. -/
def NewItem (label action : String) : ListItem :=
  .item label action (-1)

/-- Constructor `NewItemMask`. -/
def NewItemMask (label action : String) (visibility : Int) : ListItem :=
  .item label action visibility

namespace ListItem

mutual
/-- The items (leaves) that occur in a menu at any depth, from left to right;
an item is its own only leaf. -/
def leaves : ListItem → List ListItem
  | item Lab Act visibility => [item Lab Act visibility]
  | list _ Ims _ => leaves.loop Ims
/-- The leaves of a sequence of menus, in order. -/
def leaves.loop : List ListItem → List ListItem
  | [] => []
  | i :: rest => leaves i ++ leaves.loop rest
end

mutual
/-- The proper descendants of a node (children, grandchildren, ...), in
depth-first order. -/
def descendants : ListItem → List ListItem
  | item _ _ _ => []
  | list _ Ims _ => descendants.loop Ims
/-- The members of a sequence of menus together with their descendants. -/
def descendants.loop : List ListItem → List ListItem
  | [] => []
  | i :: rest => (i :: descendants i) ++ descendants.loop rest
end

end ListItem

namespace ListItem

/-- The nodes of a menu (items and lists alike): the menu itself followed by
its proper descendants. -/
def nodes (t : ListItem) : List ListItem :=
  t :: t.descendants

mutual
/-- The paths from a node down to each item below it: the lists passed on the
way, the node itself included when it is a list, paired with the item. -/
def paths : ListItem → List (List ListItem × ListItem)
  | item Lab Act visibility => [([], item Lab Act visibility)]
  | list Lab Ims visibility =>
    (paths.loop Ims).map (fun p => (list Lab Ims visibility :: p.1, p.2))
/-- The paths that start in a sequence of menus. -/
def paths.loop : List ListItem → List (List ListItem × ListItem)
  | [] => []
  | i :: rest => paths i ++ paths.loop rest
end

end ListItem

/-- The lines of a string: Go `strings.Split(s, "\n")`. -/
def lines (s : String) : List String :=
  (List.splitOn '\n' s.data).map String.mk

/-- A JSON value, as far as the export of a menu produces one. -/
inductive JSON where
  | null
  | str (s : String)
  | num (n : Int)
  | arr (elems : List JSON)
  | obj (members : List (String × JSON))

/-- A struct field as `encoding/json` sees it: the Go name of the field, the
key given by its `json:"..."` tag (empty when the field has no tag) and the
encoded value. -/
structure Field where
  name : String
  tag : String
  value : JSON

/-- A field is exported when its Go name starts with an upper case letter. -/
def Field.exported (f : Field) : Bool :=
  match f.name.data with
  | [] => false
  | c :: _ => c.isUpper

/-- The key under which a field is written: its tag, or its name without one. -/
def Field.key (f : Field) : String :=
  if f.tag = "" then f.name else f.tag

/-- Go `json.Marshal` on a struct value, following the rules documented by
`encoding/json`: the exported fields become the members of an object, in the
order of their declaration, each under its key; unexported fields are left
out. -/
def marshalStruct (fields : List Field) : JSON :=
  JSON.obj ((fields.filter Field.exported).map (fun f => (f.key, f.value)))

/-- A `ListItem` as `json.Marshal` reads it.  The methods of the package only
range over the slice `Ims`, so that a nil slice and an empty one behave alike
and `ListItem` holds a plain sequence; the encoder tells them apart, and here
`Ims` is `none` for the nil slice.  `NewList` and `NewListMask` store the slice
they are given, nil included; `list.Filtered` starts from the non-nil
`[]ListItem{}`. -/
inductive Value where
  | item (Lab : String) (Act : String) (visibility : Int)
  | list (Lab : String) (Ims : Option (List Value)) (visibility : Int)

/-- Constructor `NewList` on values, where `items` may be the nil slice. -/
def Value.NewList (label : String) (items : Option (List Value)) : Value :=
  .list label items (-1)

/-- Constructor `NewItem` on values. -/
def Value.NewItem (label action : String) : Value :=
  .item label action (-1)

mutual
/-- The value of a menu none of whose slices is nil, as is every menu
returned by `list.Filtered`. -/
def Value.ofListItem : ListItem → Value
  | .item Lab Act visibility => .item Lab Act visibility
  | .list Lab Ims visibility => .list Lab (some (Value.ofListItem.loop Ims)) visibility
/-- The values of the elements of a slice, in order. -/
def Value.ofListItem.loop : List ListItem → List Value
  | [] => []
  | i :: rest => Value.ofListItem i :: Value.ofListItem.loop rest
end

mutual
/-- The menu that a value stands for in the methods of the package, where the
nil slice has no elements. -/
def Value.toListItem : Value → ListItem
  | .item Lab Act visibility => .item Lab Act visibility
  | .list Lab Ims visibility => .list Lab (Value.toListItem.slice Ims) visibility
/-- The elements of a slice that may be nil. -/
def Value.toListItem.slice : Option (List Value) → List ListItem
  | none => []
  | some elems => Value.toListItem.loop elems
/-- The menus of the elements of a slice, in order. -/
def Value.toListItem.loop : List Value → List ListItem
  | [] => []
  | i :: rest => Value.toListItem i :: Value.toListItem.loop rest
end

mutual
/-- Go `json.Marshal` on a `ListItem`, from the declarations of the structs
`item` (`Lab` tagged `label`, `Act` tagged `action`, `visibility`) and `list`
(`Lab` tagged `label`, `Ims` tagged `items`, `visibility`).  The encoder is
library code; it is written here after the rules that `encoding/json`
documents for structs and slices. -/
def Marshal : Value → JSON
  | .item Lab Act visibility =>
    marshalStruct [⟨"Lab", "label", .str Lab⟩, ⟨"Act", "action", .str Act⟩,
      ⟨"visibility", "", .num visibility⟩]
  | .list Lab Ims visibility =>
    marshalStruct [⟨"Lab", "label", .str Lab⟩, ⟨"Ims", "items", Marshal.slice Ims⟩,
      ⟨"visibility", "", .num visibility⟩]
/-- The encoding of a slice: `null` for the nil slice, and otherwise the array
of the encoded elements. -/
def Marshal.slice : Option (List Value) → JSON
  | none => .null
  | some elems => .arr (Marshal.loop elems)
/-- The elements of a slice, encoded in order. -/
def Marshal.loop : List Value → List JSON
  | [] => []
  | i :: rest => Marshal i :: Marshal.loop rest
end

mutual
/-- The keys that occur in a JSON value at any depth. -/
def JSON.keys : JSON → List String
  | .null => []
  | .str _ => []
  | .num _ => []
  | .arr elems => JSON.keys.arr elems
  | .obj members => JSON.keys.obj members
/-- The keys that occur in the elements of an array. -/
def JSON.keys.arr : List JSON → List String
  | [] => []
  | e :: rest => JSON.keys e ++ JSON.keys.arr rest
/-- The keys of the members of an object and those inside their values. -/
def JSON.keys.obj : List (String × JSON) → List String
  | [] => []
  | (k, v) :: rest => k :: (JSON.keys v ++ JSON.keys.obj rest)
end

/-! ## Bitwise and on `Int` -/

theorem land_neg_one (m : Int) : Int.land m (-1) = m := by
  cases m with
  | ofNat n =>
    show ((Nat.ldiff n 0 : Nat) : Int) = Int.ofNat n
    have h : Nat.ldiff n 0 = n := by
      apply Nat.eq_of_testBit_eq
      intro i
      simp [Nat.testBit_ldiff]
    rw [h]; rfl
  | negSucc n =>
    show Int.negSucc (n ||| 0) = Int.negSucc n
    simp

theorem land_zero_left (v : Int) : Int.land 0 v = 0 := by
  cases v with
  | ofNat n =>
    show ((0 &&& n : Nat) : Int) = 0
    simp
  | negSucc n =>
    show ((Nat.ldiff 0 n : Nat) : Int) = 0
    have h : Nat.ldiff 0 n = 0 := by
      apply Nat.zero_of_testBit_eq_false
      intro i
      simp [Nat.testBit_ldiff]
    rw [h]; rfl

theorem land_zero_right (m : Int) : Int.land m 0 = 0 := by
  cases m with
  | ofNat n =>
    show ((n &&& 0 : Nat) : Int) = 0
    simp
  | negSucc n =>
    show ((Nat.ldiff 0 n : Nat) : Int) = 0
    have h : Nat.ldiff 0 n = 0 := by
      apply Nat.zero_of_testBit_eq_false
      intro i
      simp [Nat.testBit_ldiff]
    rw [h]; rfl

theorem int_eq_zero_of_testBit (x : Int) (h : ∀ k, Int.testBit x k = false) : x = 0 := by
  cases x with
  | ofNat n =>
    have hn : n = 0 := Nat.zero_of_testBit_eq_false (fun i => h i)
    subst hn; rfl
  | negSucc n =>
    exfalso
    have h1 := h n
    have h2 : Nat.testBit n n = false := Nat.testBit_lt_two_pow (Nat.lt_two_pow n)
    simp [Int.testBit, h2] at h1

theorem testBit_zero_int (k : Nat) : Int.testBit 0 k = false := by
  show Nat.testBit 0 k = false
  simp

/-- A mask that meets `v` still meets it after bits are added to the mask. -/
theorem land_ne_zero_mono (m1 m2 v : Int) (hsub : Int.land m1 m2 = m1)
    (h : Int.land m1 v ≠ 0) : Int.land m2 v ≠ 0 := by
  intro h0
  apply h
  apply int_eq_zero_of_testBit
  intro k
  have hk : Int.testBit (Int.land m2 v) k = false := by rw [h0]; exact testBit_zero_int k
  have hs : Int.testBit (Int.land m1 m2) k = Int.testBit m1 k := by rw [hsub]
  rw [Int.testBit_land] at hk hs ⊢
  cases h1 : Int.testBit m1 k <;> cases h2 : Int.testBit m2 k <;>
    cases h3 : Int.testBit v k <;> simp_all

/-! ## The loops as list operations, and induction over menus -/

/-- Induction over menus: a property of every item, that holds of a list
whenever it holds of all its elements, holds of every menu. -/
theorem menu_induct (P : ListItem → Prop)
    (hitem : ∀ Lab Act v, P (.item Lab Act v))
    (hlist : ∀ Lab Ims v, (∀ c ∈ Ims, P c) → P (.list Lab Ims v)) :
    ∀ t, P t := by
  intro t
  refine @ListItem.rec P (fun l => ∀ c ∈ l, P c) hitem hlist ?_ ?_ t
  · intro c hc
    cases hc
  · intro hd tl hhd htl c hc
    rcases List.mem_cons.mp hc with rfl | hc
    · exact hhd
    · exact htl c hc

theorem isVisible_loop_eq (Ims : List ListItem) (m : Int) :
    ListItem.IsVisible.loop Ims m = Ims.any (fun c => c.IsVisible m) := by
  induction Ims with
  | nil => simp [ListItem.IsVisible.loop]
  | cons i rest ih =>
    simp only [ListItem.IsVisible.loop, List.any_cons, ih]
    cases i.IsVisible m <;> simp

theorem filtered_loop_eq (Ims : List ListItem) (m : Int) :
    ListItem.Filtered.loop Ims m
      = (Ims.filter (fun c => c.IsVisible m)).map (fun c => c.Filtered m) := by
  induction Ims with
  | nil => simp [ListItem.Filtered.loop]
  | cons i rest ih =>
    simp only [ListItem.Filtered.loop, ih, List.filter_cons]
    cases i.IsVisible m <;> simp

theorem leaves_loop_eq (Ims : List ListItem) :
    ListItem.leaves.loop Ims = Ims.flatMap ListItem.leaves := by
  induction Ims with
  | nil => simp [ListItem.leaves.loop]
  | cons i rest ih => simp [ListItem.leaves.loop, ih]

theorem descendants_loop_eq (Ims : List ListItem) :
    ListItem.descendants.loop Ims = Ims.flatMap (fun c => c :: c.descendants) := by
  induction Ims with
  | nil => simp [ListItem.descendants.loop]
  | cons i rest ih => simp [ListItem.descendants.loop, ih]

/-! ## Visibility -/

/-- C1: `IsVisible` agrees with its reference definition.  An item is visible
under `m` exactly when `m & visibility` is nonzero; a list is visible under `m`
exactly when `m & visibility` is nonzero and at least one direct child is
visible under `m`. -/
theorem isVisible_reference :
    (∀ (Lab Act : String) (v m : Int),
        (ListItem.item Lab Act v).IsVisible m = true ↔ Int.land m v ≠ 0) ∧
    (∀ (Lab : String) (Ims : List ListItem) (v m : Int),
        (ListItem.list Lab Ims v).IsVisible m = true ↔
          (Int.land m v ≠ 0 ∧ ∃ c, c ∈ Ims ∧ c.IsVisible m = true)) := by
  constructor
  · intro Lab Act v m
    simp [ListItem.IsVisible]
  · intro Lab Ims v m
    simp only [ListItem.IsVisible, isVisible_loop_eq]
    by_cases h : Int.land m v = 0
    · simp [h]
    · simp [h, List.any_eq_true]

/-! ## Filtering -/

theorem sublist_flatMap_filter {α β : Type} (l : List α) (q : α → Bool) (f g : α → List β)
    (h : ∀ c ∈ l, q c = true → (f c).Sublist (g c)) :
    ((l.filter q).flatMap f).Sublist (l.flatMap g) := by
  induction l with
  | nil => simp
  | cons a rest ih =>
    have ih1 := ih (fun c hc => h c (List.mem_cons_of_mem a hc))
    by_cases hq : q a = true
    · simp only [List.filter_cons, hq, if_true, List.flatMap_cons]
      exact (h a (List.mem_cons_self a rest) hq).append ih1
    · simp only [List.filter_cons, hq, List.flatMap_cons]
      exact List.Sublist.trans ih1 (List.sublist_append_right _ _)

theorem leaves_filtered_list (Lab : String) (Ims : List ListItem) (v m : Int) :
    ((ListItem.list Lab Ims v).Filtered m).leaves
      = (Ims.filter (fun c => c.IsVisible m)).flatMap (fun c => (c.Filtered m).leaves) := by
  simp only [ListItem.Filtered, ListItem.leaves, leaves_loop_eq, filtered_loop_eq,
    List.flatMap_map]

theorem leaves_list (Lab : String) (Ims : List ListItem) (v : Int) :
    (ListItem.list Lab Ims v).leaves = Ims.flatMap ListItem.leaves := by
  simp only [ListItem.leaves, leaves_loop_eq]

/-- The leaves of the filtered copy of a visible node form, in order, a
subsequence of the leaves of the node whose own mask meets `m`; for a list this
holds whether it is visible or not. -/
theorem leaves_filtered_sublist (m : Int) (t : ListItem)
    (h : t.IsList = true ∨ t.IsVisible m = true) :
    (t.Filtered m).leaves.Sublist
      (t.leaves.filter (fun l => Int.land m l.visibility != 0)) := by
  revert h
  refine menu_induct
    (fun t => (t.IsList = true ∨ t.IsVisible m = true) →
      (t.Filtered m).leaves.Sublist
        (t.leaves.filter (fun l => Int.land m l.visibility != 0))) ?_ ?_ t
  · intro Lab Act v h
    rcases h with h | h
    · simp [ListItem.IsList] at h
    · have hv : (Int.land m v != 0) = true := by simpa [ListItem.IsVisible] using h
      simp [ListItem.Filtered, ListItem.leaves, ListItem.visibility, List.filter_cons, hv]
  · intro Lab Ims v ih _
    rw [leaves_filtered_list, leaves_list, List.filter_flatMap]
    apply sublist_flatMap_filter
    intro c hc hvis
    exact ih c hc (Or.inr hvis)

/-- C2: no hidden item reaches the output.  Every item that occurs at any
depth in the filtered copy of a list has a visibility mask whose and with the
bitmask `m` is nonzero. -/
theorem filtered_leaves_visible (Lab : String) (Ims : List ListItem) (v m : Int)
    (l : ListItem) (hl : l ∈ ((ListItem.list Lab Ims v).Filtered m).leaves) :
    l.IsList = false ∧ (Int.land m l.visibility != 0) = true := by
  have hsub := leaves_filtered_sublist m (.list Lab Ims v) (Or.inl rfl)
  have hmem := hsub.subset hl
  have hf := List.mem_filter.mp hmem
  refine ⟨?_, hf.2⟩
  have hitems : ∀ t : ListItem, ∀ x ∈ t.leaves, x.IsList = false := by
    refine menu_induct (fun t => ∀ x ∈ t.leaves, x.IsList = false) ?_ ?_
    · intro Lab Act v x hx
      simp only [ListItem.leaves, List.mem_singleton] at hx
      subst hx; rfl
    · intro Lab Ims v ih x hx
      rw [leaves_list] at hx
      obtain ⟨c, hc, hxc⟩ := List.mem_flatMap.mp hx
      exact ih c hc x hxc
  exact hitems _ l hf.1

/-- Witness for C2 on the second test case of `menu_test.go` with mask `0x08`:
the item `Thing 3` is a leaf of the filtered menu and its mask meets `0x08`. -/
theorem filtered_leaves_visible_witness :
    ListItem.item "Thing 3" "/3" 8 ∈
        ((ListItem.list "Test Case 1"
          [NewList "Filter Me Out"
            [NewItemMask "Thing 1" "/1" 16, NewItemMask "Thing 2" "/2" 16,
             NewItemMask "Thing 3" "/3" 8],
           NewItem "Keep Me" "/keep"] (-1)).Filtered 8).leaves ∧
      (ListItem.item "Thing 3" "/3" 8).IsList = false ∧
      (Int.land 8 (ListItem.item "Thing 3" "/3" 8).visibility != 0) = true :=
  have hm : ListItem.item "Thing 3" "/3" 8 ∈
        ((ListItem.list "Test Case 1"
          [NewList "Filter Me Out"
            [NewItemMask "Thing 1" "/1" 16, NewItemMask "Thing 2" "/2" 16,
             NewItemMask "Thing 3" "/3" 8],
           NewItem "Keep Me" "/keep"] (-1)).Filtered 8).leaves := by
    have e1 : Int.land 8 16 = 0 := by decide
    have e2 : Int.land 8 8 = 8 := by decide
    simp [ListItem.Filtered, ListItem.Filtered.loop, ListItem.IsVisible,
      ListItem.IsVisible.loop, ListItem.leaves, ListItem.leaves.loop, NewList, NewItem,
      NewItemMask, land_neg_one, e1, e2]
  ⟨hm, filtered_leaves_visible _ _ _ _ _ hm⟩

/-- C3: `Filtered` agrees with its reference definition.  On an item it returns
the item with label, action and mask unchanged; on a list it returns a list
with the same label whose children are, in the original order, the filtered
copies of exactly the direct children that are visible under `m`. -/
theorem filtered_reference :
    (∀ (Lab Act : String) (v m : Int),
        (ListItem.item Lab Act v).Filtered m = ListItem.item Lab Act v) ∧
    (∀ (Lab : String) (Ims : List ListItem) (v m : Int),
        ((ListItem.list Lab Ims v).Filtered m).IsList = true ∧
        ((ListItem.list Lab Ims v).Filtered m).Label = Lab ∧
        ((ListItem.list Lab Ims v).Filtered m).Items
          = (Ims.filter (fun c => c.IsVisible m)).map (fun c => c.Filtered m)) := by
  constructor
  · intro Lab Act v m
    simp [ListItem.Filtered]
  · intro Lab Ims v m
    simp [ListItem.Filtered, ListItem.IsList, ListItem.Label, ListItem.Items, filtered_loop_eq]

theorem isVisible_list_iff (Lab : String) (Ims : List ListItem) (v m : Int) :
    (ListItem.list Lab Ims v).IsVisible m = true ↔
      (Int.land m v ≠ 0 ∧ ∃ c, c ∈ Ims ∧ c.IsVisible m = true) := by
  simp only [ListItem.IsVisible, isVisible_loop_eq]
  by_cases h : Int.land m v = 0
  · simp [h]
  · simp [h, List.any_eq_true]

theorem descendants_list (Lab : String) (Ims : List ListItem) (v : Int) :
    (ListItem.list Lab Ims v).descendants = Ims.flatMap (fun c => c :: c.descendants) := by
  simp only [ListItem.descendants, descendants_loop_eq]

theorem descendants_filtered_list (Lab : String) (Ims : List ListItem) (v m : Int) :
    ((ListItem.list Lab Ims v).Filtered m).descendants
      = (Ims.filter (fun c => c.IsVisible m)).flatMap
          (fun c => c.Filtered m :: (c.Filtered m).descendants) := by
  simp only [ListItem.Filtered, ListItem.descendants, descendants_loop_eq, filtered_loop_eq,
    List.flatMap_map]

/-- A visible node keeps at least one leaf when it is filtered. -/
theorem leaves_filtered_ne_nil (m : Int) (t : ListItem) (h : t.IsVisible m = true) :
    (t.Filtered m).leaves ≠ [] := by
  revert h
  refine menu_induct
    (fun t => t.IsVisible m = true → (t.Filtered m).leaves ≠ []) ?_ ?_ t
  · intro Lab Act v _
    simp [ListItem.Filtered, ListItem.leaves]
  · intro Lab Ims v ih h
    obtain ⟨_, c, hc, hvis⟩ := (isVisible_list_iff Lab Ims v m).mp h
    have hne := ih c hc hvis
    obtain ⟨x, hx⟩ := List.exists_mem_of_ne_nil _ hne
    have hmem : x ∈ ((ListItem.list Lab Ims v).Filtered m).leaves := by
      rw [leaves_filtered_list]
      exact List.mem_flatMap.mpr ⟨c, List.mem_filter.mpr ⟨hc, hvis⟩, hx⟩
    exact List.ne_nil_of_mem hmem

/-- A visible list keeps at least one child when it is filtered. -/
theorem items_filtered_ne_nil (m : Int) (Lab : String) (Ims : List ListItem) (v : Int)
    (h : (ListItem.list Lab Ims v).IsVisible m = true) :
    ((ListItem.list Lab Ims v).Filtered m).Items ≠ [] := by
  obtain ⟨_, c, hc, hvis⟩ := (isVisible_list_iff Lab Ims v m).mp h
  have hmem : c.Filtered m ∈ ((ListItem.list Lab Ims v).Filtered m).Items := by
    simp only [ListItem.Filtered, ListItem.Items, filtered_loop_eq]
    exact List.mem_map.mpr ⟨c, List.mem_filter.mpr ⟨hc, hvis⟩, rfl⟩
  exact List.ne_nil_of_mem hmem

/-- Every proper descendant of a filtered menu is the filtered copy of a
visible proper descendant of the original. -/
theorem mem_descendants_filtered (m : Int) (t d : ListItem)
    (hd : d ∈ (t.Filtered m).descendants) :
    ∃ d0, d0 ∈ t.descendants ∧ d0.IsVisible m = true ∧ d = d0.Filtered m := by
  revert d
  refine menu_induct
    (fun t => ∀ d, d ∈ (t.Filtered m).descendants →
      ∃ d0, d0 ∈ t.descendants ∧ d0.IsVisible m = true ∧ d = d0.Filtered m) ?_ ?_ t
  · intro Lab Act v d hd
    simp [ListItem.Filtered, ListItem.descendants] at hd
  · intro Lab Ims v ih d hd
    rw [descendants_filtered_list] at hd
    obtain ⟨c, hc, hdc⟩ := List.mem_flatMap.mp hd
    obtain ⟨hcI, hvis⟩ := List.mem_filter.mp hc
    rcases List.mem_cons.mp hdc with rfl | hdc
    · refine ⟨c, ?_, hvis, rfl⟩
      rw [descendants_list]
      exact List.mem_flatMap.mpr ⟨c, hcI, List.mem_cons_self _ _⟩
    · obtain ⟨d0, hd0, hv0, rfl⟩ := ih c hcI d hdc
      refine ⟨d0, ?_, hv0, rfl⟩
      rw [descendants_list]
      exact List.mem_flatMap.mpr ⟨c, hcI, List.mem_cons_of_mem _ hd0⟩

/-- C4: empty-list elimination.  In the filtered copy of a list, every list
`d` that occurs as a proper descendant has at least one child and contains at
least one item; moreover `d` is the filtered copy of a list of the original
that is visible under `m` and has a visible descendant, so a list of the
original all of whose descendants are invisible has no counterpart in the
result. -/
theorem filtered_descendants_nonempty (Lab : String) (Ims : List ListItem) (v m : Int)
    (d : ListItem) (hd : d ∈ ((ListItem.list Lab Ims v).Filtered m).descendants)
    (hlist : d.IsList = true) :
    d.Items ≠ [] ∧ d.leaves ≠ [] ∧
      ∃ d0, d0 ∈ (ListItem.list Lab Ims v).descendants ∧ d0.IsList = true ∧
        d0.IsVisible m = true ∧ (∃ c, c ∈ d0.descendants ∧ c.IsVisible m = true) ∧
        d = d0.Filtered m := by
  obtain ⟨d0, hd0, hvis, rfl⟩ := mem_descendants_filtered m _ d hd
  cases d0 with
  | item Lab0 Act0 v0 => simp [ListItem.Filtered, ListItem.IsList] at hlist
  | list Lab0 Ims0 v0 =>
    refine ⟨items_filtered_ne_nil m Lab0 Ims0 v0 hvis, leaves_filtered_ne_nil m _ hvis,
      ListItem.list Lab0 Ims0 v0, hd0, rfl, hvis, ?_, rfl⟩
    obtain ⟨_, c, hc, hcv⟩ := (isVisible_list_iff Lab0 Ims0 v0 m).mp hvis
    refine ⟨c, ?_, hcv⟩
    rw [descendants_list]
    exact List.mem_flatMap.mpr ⟨c, hc, List.mem_cons_self _ _⟩

/-- Witness for C4 on the second test case of `menu_test.go` with mask `0x08`:
the list `Filter Me Out` survives with its one visible item. -/
theorem filtered_descendants_nonempty_witness :
    ListItem.list "Filter Me Out" [ListItem.item "Thing 3" "/3" 8] 0 ∈
      ((ListItem.list "Test Case 1"
          [NewList "Filter Me Out"
            [NewItemMask "Thing 1" "/1" 16, NewItemMask "Thing 2" "/2" 16,
             NewItemMask "Thing 3" "/3" 8],
           NewItem "Keep Me" "/keep"] (-1)).Filtered 8).descendants ∧
    (ListItem.list "Filter Me Out" [ListItem.item "Thing 3" "/3" 8] 0).IsList = true ∧
    (ListItem.list "Filter Me Out" [ListItem.item "Thing 3" "/3" 8] 0).Items ≠ [] ∧
    (ListItem.list "Filter Me Out" [ListItem.item "Thing 3" "/3" 8] 0).leaves ≠ [] :=
  have hd : ListItem.list "Filter Me Out" [ListItem.item "Thing 3" "/3" 8] 0 ∈
      ((ListItem.list "Test Case 1"
          [NewList "Filter Me Out"
            [NewItemMask "Thing 1" "/1" 16, NewItemMask "Thing 2" "/2" 16,
             NewItemMask "Thing 3" "/3" 8],
           NewItem "Keep Me" "/keep"] (-1)).Filtered 8).descendants := by
    have e1 : Int.land 8 16 = 0 := by decide
    have e2 : Int.land 8 8 = 8 := by decide
    simp [ListItem.Filtered, ListItem.Filtered.loop, ListItem.IsVisible,
      ListItem.IsVisible.loop, ListItem.descendants, ListItem.descendants.loop, NewList,
      NewItem, NewItemMask, land_neg_one, e1, e2]
  have h := filtered_descendants_nonempty _ _ _ _ _ hd rfl
  ⟨hd, rfl, h.1, h.2.1⟩

/-- C5: a list with zero children is not visible, whatever its own mask and
the bitmask are; this holds for `NewListMask` and for `NewList`. -/
theorem empty_list_not_visible (label : String) (v m : Int) :
    (NewListMask label [] v).IsVisible m = false ∧ (NewList label []).IsVisible m = false := by
  constructor
  · simp [NewListMask, ListItem.IsVisible, ListItem.IsVisible.loop]
  · simp [NewList, ListItem.IsVisible, ListItem.IsVisible.loop]

/-- C6: the visibility mask of a filtered list.  The composite literal of
`list.Filtered` does not set the field `visibility`, so the returned list
carries the zero value `0` and not the sentinel `-1`: for the list
`NewList("Root", [NewItem("A", "/a")])` and the bitmask `1` the filtered copy
has mask `0`, and although it holds a visible item it is itself visible
under no bitmask. -/
theorem filtered_visibility_is_zero :
    ((NewList "Root" [NewItem "A" "/a"]).Filtered 1).visibility = 0 ∧
    ((NewList "Root" [NewItem "A" "/a"]).Filtered 1).visibility ≠ -1 ∧
    ((NewList "Root" [NewItem "A" "/a"]).Filtered 1).Items = [NewItem "A" "/a"] ∧
    (∀ m : Int, ((NewList "Root" [NewItem "A" "/a"]).Filtered 1).IsVisible m = false) := by
  have e : ∀ m : Int, Int.land m 0 = 0 := land_zero_right
  refine ⟨?_, ?_, ?_, ?_⟩
  · simp [NewList, ListItem.Filtered, ListItem.visibility]
  · simp [NewList, ListItem.Filtered, ListItem.visibility]
  · simp [NewList, NewItem, ListItem.Filtered, ListItem.Filtered.loop, ListItem.IsVisible,
      ListItem.Items, land_neg_one]
  · intro m
    simp [NewList, ListItem.Filtered, ListItem.IsVisible, e]

/-! ## Filtering a filtered menu -/

theorem flat_filtered_loop (K : List ListItem) (m : Int)
    (hflat : ∀ c ∈ K, c.IsList = false) :
    ListItem.Filtered.loop K m = K.filter (fun l => Int.land m l.visibility != 0) := by
  induction K with
  | nil => simp [ListItem.Filtered.loop]
  | cons i rest ih =>
    have ih1 := ih (fun c hc => hflat c (List.mem_cons_of_mem i hc))
    have hi := hflat i (List.mem_cons_self i rest)
    cases i with
    | item Lab Act v =>
      simp only [ListItem.Filtered.loop, ListItem.IsVisible, ListItem.Filtered, ih1,
        List.filter_cons, ListItem.visibility]
    | list Lab Ims v => simp [ListItem.IsList] at hi

theorem flat_leaves_loop (K : List ListItem) (hflat : ∀ c ∈ K, c.IsList = false) :
    ListItem.leaves.loop K = K := by
  induction K with
  | nil => simp [ListItem.leaves.loop]
  | cons i rest ih =>
    have ih1 := ih (fun c hc => hflat c (List.mem_cons_of_mem i hc))
    have hi := hflat i (List.mem_cons_self i rest)
    cases i with
    | item Lab Act v => simp [ListItem.leaves.loop, ListItem.leaves, ih1]
    | list Lab Ims v => simp [ListItem.IsList] at hi

/-- C7, as stated, fails on the code.  For an item as the whole tree
`Filtered` returns the item itself, so its mask is never applied: the item
with mask `1` is the one leaf of the twice filtered tree under `m1 = 1`,
`m2 = 2` although `2 & 1 = 0`.  For the first test case of `menu_test.go`
filtered twice with `0xff` the nested list `Item B` is dropped by the second
pass: the leaves `Item B-0` and `Item B-1` are lost and the rendering
changes. -/
theorem refilter_counterexample :
    (((ListItem.item "A" "/a" 1).Filtered 1).Filtered 2).leaves
      ≠ (((ListItem.item "A" "/a" 1).Filtered 1).leaves).filter
          (fun l => Int.land 2 l.visibility != 0) ∧
    (((NewList "Test Case 0"
        [NewItem "Item A" "/a",
         NewList "Item B" [NewItem "Item B-0" "/b0", NewItem "Item B-1" "/b1"],
         NewItem "Item C" "/c"]).Filtered 255).Filtered 255).leaves
      ≠ (((NewList "Test Case 0"
        [NewItem "Item A" "/a",
         NewList "Item B" [NewItem "Item B-0" "/b0", NewItem "Item B-1" "/b1"],
         NewItem "Item C" "/c"]).Filtered 255).leaves).filter
          (fun l => Int.land 255 l.visibility != 0) ∧
    (((NewList "Test Case 0"
        [NewItem "Item A" "/a",
         NewList "Item B" [NewItem "Item B-0" "/b0", NewItem "Item B-1" "/b1"],
         NewItem "Item C" "/c"]).Filtered 255).Filtered 255).String
      ≠ ((NewList "Test Case 0"
        [NewItem "Item A" "/a",
         NewList "Item B" [NewItem "Item B-0" "/b0", NewItem "Item B-1" "/b1"],
         NewItem "Item C" "/c"]).Filtered 255).String := by
  have e0 : Int.land 2 1 = 0 := by decide
  have e1 : ∀ m : Int, Int.land m 0 = 0 := land_zero_right
  have hF : (NewList "Test Case 0"
        [NewItem "Item A" "/a",
         NewList "Item B" [NewItem "Item B-0" "/b0", NewItem "Item B-1" "/b1"],
         NewItem "Item C" "/c"]).Filtered 255
      = ListItem.list "Test Case 0"
          [ListItem.item "Item A" "/a" (-1),
           ListItem.list "Item B"
             [ListItem.item "Item B-0" "/b0" (-1), ListItem.item "Item B-1" "/b1" (-1)] 0,
           ListItem.item "Item C" "/c" (-1)] 0 := by
    simp [NewList, NewItem, ListItem.Filtered, ListItem.Filtered.loop, ListItem.IsVisible,
      ListItem.IsVisible.loop, land_neg_one]
  have hFF : (ListItem.list "Test Case 0"
          [ListItem.item "Item A" "/a" (-1),
           ListItem.list "Item B"
             [ListItem.item "Item B-0" "/b0" (-1), ListItem.item "Item B-1" "/b1" (-1)] 0,
           ListItem.item "Item C" "/c" (-1)] 0).Filtered 255
      = ListItem.list "Test Case 0"
          [ListItem.item "Item A" "/a" (-1), ListItem.item "Item C" "/c" (-1)] 0 := by
    simp [ListItem.Filtered, ListItem.Filtered.loop, ListItem.IsVisible,
      ListItem.IsVisible.loop, land_neg_one, e1]
  refine ⟨?_, ?_, ?_⟩
  · simp [ListItem.Filtered, ListItem.leaves, ListItem.visibility, e0]
  · rw [hF, hFF]
    simp [ListItem.leaves, ListItem.leaves.loop, ListItem.visibility, land_neg_one]
  · rw [hF, hFF]
    decide

/-- C7, amended to what `Filtered` does by design: for a list all of whose
children are items, the leaves of the twice filtered list are exactly, in the
same order, the leaves of the once filtered list whose own mask meets `m2`,
and filtering again with the same mask renders the same. -/
theorem refilter_flat (Lab : String) (Ims : List ListItem) (v m1 m2 : Int)
    (hflat : ∀ c ∈ Ims, c.IsList = false) :
    (((ListItem.list Lab Ims v).Filtered m1).Filtered m2).leaves
      = (((ListItem.list Lab Ims v).Filtered m1).leaves).filter
          (fun l => Int.land m2 l.visibility != 0) ∧
    (((ListItem.list Lab Ims v).Filtered m1).Filtered m1).String
      = ((ListItem.list Lab Ims v).Filtered m1).String := by
  have hsub : ∀ m : Int, ∀ c ∈ Ims.filter (fun l => Int.land m l.visibility != 0),
      c.IsList = false := fun m c hc => hflat c (List.mem_filter.mp hc).1
  have hsub2 : ∀ c ∈ (Ims.filter (fun l => Int.land m1 l.visibility != 0)).filter
      (fun l => Int.land m2 l.visibility != 0), c.IsList = false :=
    fun c hc => hsub m1 c (List.mem_filter.mp hc).1
  constructor
  · simp only [ListItem.Filtered, ListItem.leaves]
    rw [flat_filtered_loop Ims m1 hflat, flat_filtered_loop _ m2 (hsub m1),
      flat_leaves_loop _ hsub2, flat_leaves_loop _ (hsub m1)]
  · simp only [ListItem.Filtered]
    rw [flat_filtered_loop Ims m1 hflat, flat_filtered_loop _ m1 (hsub m1),
      List.filter_filter]
    simp

/-- Witness for the amended C7 on the menu of `example_test.go` without its
nested list, filtered with `0x81` and then with `0x01`. -/
theorem refilter_flat_witness :
    (∀ c ∈ [NewItem "About" "/about", NewItemMask "Admin" "/admin" 128,
        NewItemMask "FAQ" "/faq" 1], c.IsList = false) ∧
    (((ListItem.list "Haha" [NewItem "About" "/about", NewItemMask "Admin" "/admin" 128,
        NewItemMask "FAQ" "/faq" 1] (-1)).Filtered 129).Filtered 1).leaves
      = (((ListItem.list "Haha" [NewItem "About" "/about", NewItemMask "Admin" "/admin" 128,
        NewItemMask "FAQ" "/faq" 1] (-1)).Filtered 129).leaves).filter
          (fun l => Int.land 1 l.visibility != 0) :=
  have hflat : ∀ c ∈ [NewItem "About" "/about", NewItemMask "Admin" "/admin" 128,
        NewItemMask "FAQ" "/faq" 1], c.IsList = false := by
    simp [NewItem, NewItemMask, ListItem.IsList]
  ⟨hflat, (refilter_flat "Haha" _ (-1) 129 1 hflat).1⟩

/-- C8: a list hidden by its own mask.  `list.Filtered` never consults the
mask of its receiver: the list `NewListMask("Admin", [NewItem("Users",
"/users")], 2)` is hidden under the bitmask `1` (`1 & 2 = 0`, and `IsVisible`
returns `false`), yet its filtered copy still contains the item `Users`. -/
theorem hidden_list_filtered_keeps_items :
    Int.land 1 (NewListMask "Admin" [NewItem "Users" "/users"] 2).visibility = 0 ∧
    (NewListMask "Admin" [NewItem "Users" "/users"] 2).IsVisible 1 = false ∧
    ((NewListMask "Admin" [NewItem "Users" "/users"] 2).Filtered 1).leaves
      = [NewItem "Users" "/users"] := by
  have e : Int.land 1 2 = 0 := by decide
  refine ⟨?_, ?_, ?_⟩
  · simp [NewListMask, ListItem.visibility, e]
  · simp [NewListMask, ListItem.IsVisible, e]
  · simp [NewListMask, NewItem, ListItem.Filtered, ListItem.Filtered.loop,
      ListItem.IsVisible, ListItem.leaves, ListItem.leaves.loop, land_neg_one]

/-- C9: an item without a visibility mask under the bitmask `0`.  `NewItem`
stores the sentinel `-1`, and `0 & -1 = 0`, so `IsVisible(0)` returns `false`
for `NewItem("About", "/about")`. -/
theorem newItem_not_visible_under_zero :
    (NewItem "About" "/about").visibility = -1 ∧
    (NewItem "About" "/about").IsVisible 0 = false := by
  constructor
  · simp [NewItem, ListItem.visibility]
  · simp [NewItem, ListItem.IsVisible, land_zero_left]

/-! ## Monotonicity -/

theorem isVisible_mono (m1 m2 : Int) (hsub : Int.land m1 m2 = m1) (t : ListItem)
    (h : t.IsVisible m1 = true) : t.IsVisible m2 = true := by
  revert h
  refine menu_induct (fun t => t.IsVisible m1 = true → t.IsVisible m2 = true) ?_ ?_ t
  · intro Lab Act v h
    have h1 : Int.land m1 v ≠ 0 := by simpa [ListItem.IsVisible] using h
    have h2 := land_ne_zero_mono m1 m2 v hsub h1
    simpa [ListItem.IsVisible] using h2
  · intro Lab Ims v ih h
    obtain ⟨h1, c, hc, hvis⟩ := (isVisible_list_iff Lab Ims v m1).mp h
    exact (isVisible_list_iff Lab Ims v m2).mpr
      ⟨land_ne_zero_mono m1 m2 v hsub h1, c, hc, ih c hc hvis⟩

/-- C10: filter monotonicity.  When every bit set in `m1` is also set in `m2`,
every node visible under `m1` is visible under `m2`, and every item that
occurs in the copy filtered with `m1` also occurs in the copy filtered with
`m2`. -/
theorem filter_monotone (t : ListItem) (m1 m2 : Int) (hsub : Int.land m1 m2 = m1) :
    (∀ n : ListItem, n.IsVisible m1 = true → n.IsVisible m2 = true) ∧
    (∀ l, l ∈ (t.Filtered m1).leaves → l ∈ (t.Filtered m2).leaves) := by
  refine ⟨fun n => isVisible_mono m1 m2 hsub n, ?_⟩
  refine menu_induct
    (fun t => ∀ l, l ∈ (t.Filtered m1).leaves → l ∈ (t.Filtered m2).leaves) ?_ ?_ t
  · intro Lab Act v l hl
    simpa [ListItem.Filtered] using hl
  · intro Lab Ims v ih l hl
    rw [leaves_filtered_list] at hl ⊢
    obtain ⟨c, hc, hlc⟩ := List.mem_flatMap.mp hl
    obtain ⟨hcI, hvis⟩ := List.mem_filter.mp hc
    exact List.mem_flatMap.mpr
      ⟨c, List.mem_filter.mpr ⟨hcI, isVisible_mono m1 m2 hsub c hvis⟩, ih c hcI l hlc⟩

/-- Witness for C10 on the second test case of `menu_test.go` with the
bitmasks `0x08` and `0x18`. -/
theorem filter_monotone_witness :
    Int.land 8 24 = 8 ∧
    ((∀ n : ListItem, n.IsVisible 8 = true → n.IsVisible 24 = true) ∧
     (∀ l, l ∈ ((NewList "Test Case 1"
          [NewList "Filter Me Out"
            [NewItemMask "Thing 1" "/1" 16, NewItemMask "Thing 2" "/2" 16,
             NewItemMask "Thing 3" "/3" 8],
           NewItem "Keep Me" "/keep"]).Filtered 8).leaves →
         l ∈ ((NewList "Test Case 1"
          [NewList "Filter Me Out"
            [NewItemMask "Thing 1" "/1" 16, NewItemMask "Thing 2" "/2" 16,
             NewItemMask "Thing 3" "/3" 8],
           NewItem "Keep Me" "/keep"]).Filtered 24).leaves)) :=
  ⟨by decide, filter_monotone _ 8 24 (by decide)⟩

/-! ## Rendering -/

theorem data_Repeat_tab (n : Nat) : (Repeat "\t" n).data = List.replicate n '\t' := by
  induction n with
  | zero => simp [Repeat]
  | succ k ih =>
    simp only [Repeat, String.data_join] at ih ⊢
    rw [List.replicate_succ, List.map_cons, List.flatten_cons, ih, List.replicate_succ]
    rfl

theorem data_intercalate_go (sep : String) (xs : List String) (acc : String) :
    (String.intercalate.go acc sep xs).data
      = acc.data ++ xs.flatMap (fun x => sep.data ++ x.data) := by
  induction xs generalizing acc with
  | nil => simp [String.intercalate.go]
  | cons x rest ih =>
    simp [String.intercalate.go, ih, String.data_append, List.append_assoc]

theorem data_Join_cons (h : String) (xs : List String) (sep : String) :
    (Join (h :: xs) sep).data = h.data ++ xs.flatMap (fun x => sep.data ++ x.data) := by
  simp only [Join, String.intercalate]
  exact data_intercalate_go sep xs h

theorem indentedString_loop_eq (Ims : List ListItem) (n : Nat) :
    ListItem.IndentedString.loop Ims n = Ims.map (fun c => c.IndentedString (n + 1)) := by
  induction Ims with
  | nil => simp [ListItem.IndentedString.loop]
  | cons i rest ih => simp [ListItem.IndentedString.loop, ih]

/-- The characters of a rendered item. -/
theorem data_indentedString_item (Lab Act : String) (v : Int) (n : Nat) :
    ((ListItem.item Lab Act v).IndentedString n).data
      = List.replicate n '\t' ++ (Lab.data ++ ([':', ' '] ++ Act.data)) := by
  simp only [ListItem.IndentedString, String.data_append, data_Repeat_tab]
  simp

/-- The characters of a rendered list. -/
theorem data_indentedString_list (Lab : String) (Ims : List ListItem) (v : Int) (n : Nat) :
    ((ListItem.list Lab Ims v).IndentedString n).data
      = List.replicate n '\t' ++ (Lab.data ++
          Ims.flatMap (fun c => '\n' :: (c.IndentedString (n + 1)).data)) := by
  simp only [ListItem.IndentedString, data_Join_cons, indentedString_loop_eq,
    String.data_append, data_Repeat_tab, List.flatMap_map, List.append_assoc]
  rfl

/-- C11: `IndentedString` agrees with its reference definition.  An item is
rendered as `n` tab characters followed by the label, `": "` and the action; a
list as `n` tab characters followed by the label and then, for each child in
order, a newline followed by the child rendered at indent `n + 1`, with nothing
after the last child. -/
theorem indentedString_reference :
    (∀ (Lab Act : String) (v : Int) (n : Nat),
        (ListItem.item Lab Act v).IndentedString n
          = String.mk (List.replicate n '\t') ++ Lab ++ ": " ++ Act) ∧
    (∀ (Lab : String) (Ims : List ListItem) (v : Int) (n : Nat),
        (ListItem.list Lab Ims v).IndentedString n
          = String.mk (List.replicate n '\t') ++ Lab ++
              String.join (Ims.map (fun c => "\n" ++ c.IndentedString (n + 1)))) := by
  constructor
  · intro Lab Act v n
    apply String.ext
    rw [data_indentedString_item]
    simp [String.data_append]
  · intro Lab Ims v n
    apply String.ext
    rw [data_indentedString_list]
    simp only [String.data_append, String.data_join, List.map_map, List.append_assoc]
    congr 2

/-- C17: for every node, `String()` is equal to `IndentedString(0)`. -/
theorem string_eq_indentedString_zero (t : ListItem) : t.String = t.IndentedString 0 := by
  cases t with
  | item Lab Act v =>
    apply String.ext
    rw [data_indentedString_item]
    simp [ListItem.String, String.data_append]
  | list Lab Ims v => rfl

/-! ## Lines of the rendering -/

theorem nodes_child_subset (Lab : String) (Ims : List ListItem) (v : Int) (c : ListItem)
    (hc : c ∈ Ims) (d : ListItem) (hd : d ∈ c.nodes) :
    d ∈ (ListItem.list Lab Ims v).nodes := by
  simp only [ListItem.nodes, descendants_list]
  exact List.mem_cons_of_mem _ (List.mem_flatMap.mpr ⟨c, hc, hd⟩)

theorem splitOnP_append_sep {α : Type} (p : α → Bool) (sep : α) (hsep : p sep = true)
    (a b : List α) :
    List.splitOnP p (a ++ sep :: b) = List.splitOnP p a ++ List.splitOnP p b := by
  induction a with
  | nil => simp [List.splitOnP_cons, hsep, List.splitOnP_nil]
  | cons x rest ih =>
    rw [List.cons_append, List.splitOnP_cons, List.splitOnP_cons, ih]
    by_cases hx : p x = true
    · simp [hx]
    · simp only [hx]
      cases hs : List.splitOnP p rest with
      | nil => exact absurd hs (List.splitOnP_ne_nil p rest)
      | cons y ys => simp [List.modifyHead]

theorem splitOnP_flatMap_sep {α β : Type} (p : α → Bool) (sep : α) (hsep : p sep = true)
    (r : β → List α) (Ims : List β) (h : List α) :
    List.splitOnP p (h ++ Ims.flatMap (fun c => sep :: r c))
      = List.splitOnP p h ++ Ims.flatMap (fun c => List.splitOnP p (r c)) := by
  induction Ims generalizing h with
  | nil => simp
  | cons c rest ih =>
    rw [List.flatMap_cons, List.flatMap_cons, List.cons_append,
      splitOnP_append_sep p sep hsep, ih (r c)]

theorem splitOn_newline_single (l : List Char) (h : '\n' ∉ l) :
    List.splitOn '\n' l = [l] := by
  apply List.splitOnP_eq_single
  intro x hx hp
  have : x = '\n' := by simpa using hp
  exact h (this ▸ hx)

/-- Under the assumption that no label and no action holds a newline, the
lines of a menu rendered at indent `n` are the lines of the menu rendered at
indent `0`, each behind `n` more tab characters. -/
theorem lines_indentedString (t : ListItem)
    (hnl : ∀ d ∈ t.nodes, '\n' ∉ d.Label.data ∧ '\n' ∉ d.Action.data) (n : Nat) :
    List.splitOn '\n' (t.IndentedString n).data
      = (List.splitOn '\n' (t.IndentedString 0).data).map
          (fun l => List.replicate n '\t' ++ l) := by
  revert hnl n
  refine menu_induct
    (fun t => (∀ d ∈ t.nodes, '\n' ∉ d.Label.data ∧ '\n' ∉ d.Action.data) → ∀ n : Nat,
      List.splitOn '\n' (t.IndentedString n).data
        = (List.splitOn '\n' (t.IndentedString 0).data).map
            (fun l => List.replicate n '\t' ++ l)) ?_ ?_ t
  · intro Lab Act v hnl n
    have h0 := hnl (.item Lab Act v) (List.mem_cons_self _ _)
    simp only [ListItem.Label, ListItem.Action] at h0
    have hno : ∀ k : Nat, '\n' ∉ List.replicate k '\t' ++ (Lab.data ++ ([':', ' '] ++ Act.data)) := by
      intro k hmem
      simp only [List.mem_append, List.mem_replicate, List.mem_cons, List.mem_singleton] at hmem
      rcases hmem with ⟨_, h⟩ | h | (h | h | h) | h
      · exact absurd h (by decide)
      · exact h0.1 h
      · exact absurd h (by decide)
      · exact absurd h (by decide)
      · simp at h
      · exact h0.2 h
    rw [data_indentedString_item, data_indentedString_item, splitOn_newline_single _ (hno n),
      splitOn_newline_single _ (hno 0)]
    simp
  · intro Lab Ims v ih hnl n
    have h0 := hnl (.list Lab Ims v) (List.mem_cons_self _ _)
    simp only [ListItem.Label] at h0
    have hhead : ∀ k : Nat, '\n' ∉ List.replicate k '\t' ++ Lab.data := by
      intro k hmem
      simp only [List.mem_append, List.mem_replicate] at hmem
      rcases hmem with ⟨_, h⟩ | h
      · exact absurd h (by decide)
      · exact h0.1 h
    have ihc : ∀ c ∈ Ims, ∀ k : Nat,
        List.splitOn '\n' (c.IndentedString k).data
          = (List.splitOn '\n' (c.IndentedString 0).data).map
              (fun l => List.replicate k '\t' ++ l) :=
      fun c hc k => ih c hc (fun d hd => hnl d (nodes_child_subset Lab Ims v c hc d hd)) k
    have hsplit : ∀ k : Nat,
        List.splitOn '\n' ((ListItem.list Lab Ims v).IndentedString k).data
          = (List.replicate k '\t' ++ Lab.data) ::
              Ims.flatMap (fun c => List.splitOn '\n' (c.IndentedString (k + 1)).data) := by
      intro k
      rw [data_indentedString_list, ← List.append_assoc]
      show List.splitOnP (fun x => x == '\n') _ = _
      rw [splitOnP_flatMap_sep (fun x => x == '\n') '\n' (by decide)]
      have := splitOn_newline_single _ (hhead k)
      unfold List.splitOn at this
      rw [this]
      rfl
    rw [hsplit n, hsplit 0]
    simp only [List.map_cons, List.replicate_zero, List.nil_append, List.map_flatMap]
    congr 1
    apply List.flatMap_congr
    intro c hc
    rw [ihc c hc (n + 1), ihc c hc (0 + 1), List.map_map]
    apply List.map_congr_left
    intro l _
    simp [List.replicate_add, List.append_assoc]

theorem string_indent_zero (t : ListItem) : t.String = t.IndentedString 0 := by
  cases t with
  | item Lab Act v =>
    apply String.ext
    simp [ListItem.String, ListItem.IndentedString, Repeat, String.data_append]
  | list Lab Ims v => rfl

/-- C12: tabs at the beginning of every line.  `item.IndentedString` puts the
tabs once in front of the item, not in front of each of its lines: the item
`NewItem("a\nb", "/x")` has the two lines `a` and `b: /x`, and rendered at
indent `1` its lines are `\ta` and `b: /x`, the second without the tab that
the lines of `String()` with a tab prepended would have. -/
theorem indentedString_lines_counterexample :
    lines ((NewItem "a\nb" "/x").IndentedString 1) = ["\ta", "b: /x"] ∧
    (lines (NewItem "a\nb" "/x").String).map
        (fun l => String.mk (List.replicate 1 '\t') ++ l) = ["\ta", "\tb: /x"] ∧
    lines ((NewItem "a\nb" "/x").IndentedString 1)
      ≠ (lines (NewItem "a\nb" "/x").String).map
          (fun l => String.mk (List.replicate 1 '\t') ++ l) := by
  refine ⟨by decide, by decide, by decide⟩

/-- For a menu whose labels and actions hold no newline, the lines of
`IndentedString(n)` are the lines of `String()`, in the same number and order,
each with `n` tab characters prepended. -/
theorem indentedString_lines (t : ListItem)
    (hnl : ∀ d ∈ t.nodes, '\n' ∉ d.Label.data ∧ '\n' ∉ d.Action.data) (n : Nat) :
    lines (t.IndentedString n)
      = (lines t.String).map (fun l => String.mk (List.replicate n '\t') ++ l) := by
  simp only [lines, string_indent_zero, lines_indentedString t hnl n, List.map_map]
  apply List.map_congr_left
  intro l _
  apply String.ext
  simp [String.data_append]

/-! ## One line per node -/

theorem data_indentedString_succ_ne_nil (c : ListItem) (k : Nat) :
    (c.IndentedString (k + 1)).data ≠ [] := by
  cases c with
  | item Lab Act v => rw [data_indentedString_item]; simp [List.replicate_succ]
  | list Lab Ims v => rw [data_indentedString_list]; simp [List.replicate_succ]

theorem last_ne_of_not_mem (l : List Char) (a : Char) (h : a ∉ l) :
    l.getLast? ≠ some a := by
  intro hl
  exact h (List.mem_of_mem_getLast? hl)

theorem count_newline_indentedString (t : ListItem)
    (hnl : ∀ d ∈ t.nodes, '\n' ∉ d.Label.data ∧ '\n' ∉ d.Action.data) (n : Nat) :
    (t.IndentedString n).data.count '\n' = t.descendants.length := by
  revert hnl n
  refine menu_induct
    (fun t => (∀ d ∈ t.nodes, '\n' ∉ d.Label.data ∧ '\n' ∉ d.Action.data) → ∀ n : Nat,
      (t.IndentedString n).data.count '\n' = t.descendants.length) ?_ ?_ t
  · intro Lab Act v hnl n
    have h0 := hnl (.item Lab Act v) (List.mem_cons_self _ _)
    simp only [ListItem.Label, ListItem.Action] at h0
    rw [data_indentedString_item]
    simp [List.count_append, List.count_replicate, List.count_eq_zero.mpr h0.1,
      List.count_eq_zero.mpr h0.2, List.count_cons, ListItem.descendants]
  · intro Lab Ims v ih hnl n
    have h0 := hnl (.list Lab Ims v) (List.mem_cons_self _ _)
    simp only [ListItem.Label] at h0
    rw [data_indentedString_list, descendants_list, List.count_append, List.count_append,
      List.count_flatMap, List.length_flatMap, List.count_replicate,
      List.count_eq_zero.mpr h0.1]
    have hmap : List.map (List.count '\n' ∘ fun c => '\n' :: (c.IndentedString (n + 1)).data) Ims
        = List.map (List.length ∘ fun c => c :: c.descendants) Ims := by
      apply List.map_congr_left
      intro c hc
      have := ih c hc (fun d hd => hnl d (nodes_child_subset Lab Ims v c hc d hd)) (n + 1)
      simp [List.count_cons, this]
    rw [hmap]
    simp

theorem last_indentedString (t : ListItem)
    (hnl : ∀ d ∈ t.nodes, '\n' ∉ d.Label.data ∧ '\n' ∉ d.Action.data) (n : Nat) :
    (t.IndentedString n).data.getLast? ≠ some '\n' := by
  revert hnl n
  refine menu_induct
    (fun t => (∀ d ∈ t.nodes, '\n' ∉ d.Label.data ∧ '\n' ∉ d.Action.data) → ∀ n : Nat,
      (t.IndentedString n).data.getLast? ≠ some '\n') ?_ ?_ t
  · intro Lab Act v hnl n
    have h0 := hnl (.item Lab Act v) (List.mem_cons_self _ _)
    simp only [ListItem.Label, ListItem.Action] at h0
    rw [data_indentedString_item]
    apply last_ne_of_not_mem
    intro hmem
    simp only [List.mem_append, List.mem_replicate, List.mem_cons, List.mem_singleton] at hmem
    rcases hmem with ⟨_, h⟩ | h | (h | h | h) | h
    · exact absurd h (by decide)
    · exact h0.1 h
    · exact absurd h (by decide)
    · exact absurd h (by decide)
    · simp at h
    · exact h0.2 h
  · intro Lab Ims v ih hnl n
    have h0 := hnl (.list Lab Ims v) (List.mem_cons_self _ _)
    simp only [ListItem.Label] at h0
    rw [data_indentedString_list]
    rcases List.eq_nil_or_concat Ims with hnil | ⟨L, c, hL⟩
    · subst hnil
      apply last_ne_of_not_mem
      intro hmem
      simp only [List.flatMap_nil, List.append_nil, List.mem_append, List.mem_replicate] at hmem
      rcases hmem with ⟨_, h⟩ | h
      · exact absurd h (by decide)
      · exact h0.1 h
    · have hc : c ∈ Ims := by rw [hL]; simp
      have hlast := ih c hc (fun d hd => hnl d (nodes_child_subset Lab Ims v c hc d hd)) (n + 1)
      have hne := data_indentedString_succ_ne_nil c n
      have hshape : List.replicate n '\t' ++ (Lab.data ++
            Ims.flatMap (fun c => '\n' :: (c.IndentedString (n + 1)).data))
          = (List.replicate n '\t' ++ (Lab.data ++
              (L.flatMap (fun c => '\n' :: (c.IndentedString (n + 1)).data) ++ ['\n'])))
            ++ (c.IndentedString (n + 1)).data := by
        rw [hL]
        simp [List.flatMap_append, List.append_assoc]
      rw [hshape, List.getLast?_append_of_ne_nil _ hne]
      exact hlast

/-- C20: one line per node.  For every menu whose labels and actions hold no
newline and every indent `n`, the number of newline characters in
`IndentedString(n)` is the number of nodes (items and lists) minus one, and the
output does not end with a newline. -/
theorem indentedString_one_line_per_node (t : ListItem)
    (hnl : ∀ d ∈ t.nodes, '\n' ∉ d.Label.data ∧ '\n' ∉ d.Action.data) (n : Nat) :
    (t.IndentedString n).data.count '\n' = t.nodes.length - 1 ∧
    (t.IndentedString n).data.getLast? ≠ some '\n' := by
  refine ⟨?_, last_indentedString t hnl n⟩
  rw [count_newline_indentedString t hnl n]
  simp [ListItem.nodes]

/-- Witness for C20 on the first test case of `menu_test.go`, which has six
nodes and is rendered with five newlines. -/
theorem indentedString_one_line_per_node_witness :
    (∀ d ∈ (NewList "Test Case 0"
        [NewItem "Item A" "/a",
         NewList "Item B" [NewItem "Item B-0" "/b0", NewItem "Item B-1" "/b1"],
         NewItem "Item C" "/c"]).nodes, '\n' ∉ d.Label.data ∧ '\n' ∉ d.Action.data) ∧
    ((NewList "Test Case 0"
        [NewItem "Item A" "/a",
         NewList "Item B" [NewItem "Item B-0" "/b0", NewItem "Item B-1" "/b1"],
         NewItem "Item C" "/c"]).IndentedString 0).data.count '\n' = 6 - 1 :=
  have hnl : ∀ d ∈ (NewList "Test Case 0"
        [NewItem "Item A" "/a",
         NewList "Item B" [NewItem "Item B-0" "/b0", NewItem "Item B-1" "/b1"],
         NewItem "Item C" "/c"]).nodes, '\n' ∉ d.Label.data ∧ '\n' ∉ d.Action.data := by
    decide
  ⟨hnl, (indentedString_one_line_per_node _ hnl 0).1⟩

/-! ## Filtering and rendering -/

theorem filtered_loop_all_visible (Ims : List ListItem) (m : Int)
    (h : ∀ c ∈ Ims, c.IsVisible m = true) :
    ListItem.Filtered.loop Ims m = Ims.map (fun c => c.Filtered m) := by
  rw [filtered_loop_eq, List.filter_eq_self.mpr h]

theorem filtered_loop_none_visible (Ims : List ListItem) (m : Int)
    (h : ∀ c ∈ Ims, c.IsVisible m = false) :
    ListItem.Filtered.loop Ims m = [] := by
  rw [filtered_loop_eq, List.filter_eq_nil_iff.mpr (fun c hc => by simp [h c hc])]
  rfl

/-- In a menu whose nodes all carry the mask `-1` and whose lists all have a
child, every bitmask other than `0` makes the menu visible and filtering
leaves the rendering at every indent unchanged. -/
theorem default_masks_filtered (m : Int) (hm : m ≠ 0) (t : ListItem)
    (h : ∀ d ∈ t.nodes, d.visibility = -1 ∧ (d.IsList = true → d.Items ≠ [])) :
    t.IsVisible m = true ∧ ∀ n : Nat, (t.Filtered m).IndentedString n = t.IndentedString n := by
  revert h
  refine menu_induct
    (fun t => (∀ d ∈ t.nodes, d.visibility = -1 ∧ (d.IsList = true → d.Items ≠ [])) →
      (t.IsVisible m = true ∧
        ∀ n : Nat, (t.Filtered m).IndentedString n = t.IndentedString n)) ?_ ?_ t
  · intro Lab Act v h
    have h0 := (h (.item Lab Act v) (List.mem_cons_self _ _)).1
    simp only [ListItem.visibility] at h0
    subst h0
    refine ⟨?_, fun n => by simp [ListItem.Filtered]⟩
    simp [ListItem.IsVisible, land_neg_one, hm]
  · intro Lab Ims v ih h
    have h0 := h (.list Lab Ims v) (List.mem_cons_self _ _)
    simp only [ListItem.visibility, ListItem.IsList, ListItem.Items] at h0
    obtain ⟨hv, hne⟩ := h0
    subst hv
    have ihc : ∀ c ∈ Ims, c.IsVisible m = true ∧
        ∀ n : Nat, (c.Filtered m).IndentedString n = c.IndentedString n :=
      fun c hc => ih c hc (fun d hd => h d (nodes_child_subset Lab Ims (-1) c hc d hd))
    constructor
    · obtain ⟨c, hc⟩ := List.exists_mem_of_ne_nil Ims (hne trivial)
      refine (isVisible_list_iff Lab Ims (-1) m).mpr ⟨?_, c, hc, (ihc c hc).1⟩
      rw [land_neg_one]; exact hm
    · intro n
      simp only [ListItem.Filtered, ListItem.IndentedString, indentedString_loop_eq]
      rw [filtered_loop_all_visible Ims m (fun c hc => (ihc c hc).1), List.map_map]
      congr 2
      apply List.map_congr_left
      intro c hc
      exact (ihc c hc).2 (n + 1)

/-- C13: on a menu in which every node carries the default mask `-1` and every
list has at least one child, filtering with a bitmask other than `0` removes
nothing: the filtered copy renders as the original. -/
theorem filtered_default_masks_string (t : ListItem) (m : Int) (hm : m ≠ 0)
    (h : ∀ d ∈ t.nodes, d.visibility = -1 ∧ (d.IsList = true → d.Items ≠ [])) :
    (t.Filtered m).String = t.String := by
  rw [string_indent_zero, string_indent_zero]
  exact (default_masks_filtered m hm t h).2 0

/-- Witness for C13 on the first test case of `menu_test.go` with the bitmask
`0xff`. -/
theorem filtered_default_masks_string_witness :
    (255 : Int) ≠ 0 ∧
    (∀ d ∈ (NewList "Test Case 0"
        [NewItem "Item A" "/a",
         NewList "Item B" [NewItem "Item B-0" "/b0", NewItem "Item B-1" "/b1"],
         NewItem "Item C" "/c"]).nodes,
      d.visibility = -1 ∧ (d.IsList = true → d.Items ≠ [])) ∧
    ((NewList "Test Case 0"
        [NewItem "Item A" "/a",
         NewList "Item B" [NewItem "Item B-0" "/b0", NewItem "Item B-1" "/b1"],
         NewItem "Item C" "/c"]).Filtered 255).String
      = "Test Case 0\n\tItem A: /a\n\tItem B\n\t\tItem B-0: /b0\n\t\tItem B-1: /b1\n\tItem C: /c" :=
  have hall : ∀ d ∈ (NewList "Test Case 0"
        [NewItem "Item A" "/a",
         NewList "Item B" [NewItem "Item B-0" "/b0", NewItem "Item B-1" "/b1"],
         NewItem "Item C" "/c"]).nodes,
      d.visibility = -1 ∧ (d.IsList = true → d.Items ≠ []) := by
    simp [NewList, NewItem, ListItem.nodes, ListItem.descendants, ListItem.descendants.loop,
      ListItem.visibility, ListItem.IsList, ListItem.Items]
  ⟨by decide, hall, (filtered_default_masks_string _ 255 (by decide) hall).trans (by decide)⟩

/-- C14: when none of the direct children of a list is visible under `m`, the
filtered copy is a list with the label preserved and no children, and its
`String()` is exactly the label. -/
theorem filtered_no_visible_child (Lab : String) (Ims : List ListItem) (v m : Int)
    (h : ∀ c ∈ Ims, c.IsVisible m = false) :
    ((ListItem.list Lab Ims v).Filtered m).IsList = true ∧
    ((ListItem.list Lab Ims v).Filtered m).Label = Lab ∧
    ((ListItem.list Lab Ims v).Filtered m).Items = [] ∧
    ((ListItem.list Lab Ims v).Filtered m).String = Lab := by
  simp only [ListItem.Filtered, filtered_loop_none_visible Ims m h, ListItem.IsList,
    ListItem.Label, ListItem.Items, true_and]
  apply String.ext
  rw [string_indent_zero, data_indentedString_list]
  simp

/-- Witness for C14 on the first list of `example_test.go` cut down to its
masked items, filtered with a bitmask that meets neither mask. -/
theorem filtered_no_visible_child_witness :
    (∀ c ∈ [NewItemMask "Admin" "/admin" 128, NewItemMask "FAQ" "/faq" 1],
      c.IsVisible 2 = false) ∧
    ((ListItem.list "Haha" [NewItemMask "Admin" "/admin" 128, NewItemMask "FAQ" "/faq" 1]
      (-1)).Filtered 2).Items = [] ∧
    ((ListItem.list "Haha" [NewItemMask "Admin" "/admin" 128, NewItemMask "FAQ" "/faq" 1]
      (-1)).Filtered 2).String = "Haha" :=
  have hnone : ∀ c ∈ [NewItemMask "Admin" "/admin" 128, NewItemMask "FAQ" "/faq" 1],
      c.IsVisible 2 = false := by decide
  have h := filtered_no_visible_child "Haha" _ (-1) 2 hnone
  ⟨hnone, h.2.2.1, h.2.2.2⟩

/-- A visible node has a visible item among its leaves. -/
theorem exists_visible_leaf (m : Int) (t : ListItem) (h : t.IsVisible m = true) :
    ∃ x, x ∈ t.leaves ∧ x.IsVisible m = true := by
  revert h
  refine menu_induct
    (fun t => t.IsVisible m = true → ∃ x, x ∈ t.leaves ∧ x.IsVisible m = true) ?_ ?_ t
  · intro Lab Act v h
    exact ⟨_, by simp [ListItem.leaves], h⟩
  · intro Lab Ims v ih h
    obtain ⟨_, c, hc, hvis⟩ := (isVisible_list_iff Lab Ims v m).mp h
    obtain ⟨x, hx, hxv⟩ := ih c hc hvis
    refine ⟨x, ?_, hxv⟩
    rw [leaves_list]
    exact List.mem_flatMap.mpr ⟨c, hc, hx⟩

/-- C15: a list none of whose items, at any depth, is visible under `m` is not
visible under `m`, whatever its own mask is. -/
theorem list_without_visible_item (Lab : String) (Ims : List ListItem) (v m : Int)
    (h : ∀ x ∈ (ListItem.list Lab Ims v).leaves, x.IsVisible m = false) :
    (ListItem.list Lab Ims v).IsVisible m = false := by
  cases hvis : (ListItem.list Lab Ims v).IsVisible m with
  | false => rfl
  | true =>
    obtain ⟨x, hx, hxv⟩ := exists_visible_leaf m _ hvis
    rw [h x hx] at hxv
    exact absurd hxv (by decide)

/-- Witness for C15 on the list `Filter Me Out` of the second test case of
`menu_test.go` with the bitmask `0x22`. -/
theorem list_without_visible_item_witness :
    (∀ x ∈ (ListItem.list "Filter Me Out"
        [NewItemMask "Thing 1" "/1" 16, NewItemMask "Thing 2" "/2" 16,
         NewItemMask "Thing 3" "/3" 8] (-1)).leaves, x.IsVisible 34 = false) ∧
    (ListItem.list "Filter Me Out"
        [NewItemMask "Thing 1" "/1" 16, NewItemMask "Thing 2" "/2" 16,
         NewItemMask "Thing 3" "/3" 8] (-1)).IsVisible 34 = false :=
  have hnone : ∀ x ∈ (ListItem.list "Filter Me Out"
        [NewItemMask "Thing 1" "/1" 16, NewItemMask "Thing 2" "/2" 16,
         NewItemMask "Thing 3" "/3" 8] (-1)).leaves, x.IsVisible 34 = false := by decide
  ⟨hnone, list_without_visible_item _ _ _ _ hnone⟩

/-! ## Filtering only removes -/

theorem length_flatMap_filter_le {α β : Type} (l : List α) (q : α → Bool) (f g : α → List β)
    (h : ∀ c ∈ l, q c = true → (f c).length ≤ (g c).length) :
    ((l.filter q).flatMap f).length ≤ (l.flatMap g).length := by
  induction l with
  | nil => simp
  | cons a rest ih =>
    have ih1 := ih (fun c hc => h c (List.mem_cons_of_mem a hc))
    by_cases hq : q a = true
    · simp only [List.filter_cons, hq, if_true, List.flatMap_cons, List.length_append]
      exact Nat.add_le_add (h a (List.mem_cons_self a rest) hq) ih1
    · simp only [List.filter_cons, hq, List.flatMap_cons, List.length_append]
      exact Nat.le_trans ih1 (Nat.le_add_left _ _)

theorem leaves_filtered_sublist_leaves (m : Int) (t : ListItem) :
    (t.Filtered m).leaves.Sublist t.leaves := by
  refine menu_induct (fun t => (t.Filtered m).leaves.Sublist t.leaves) ?_ ?_ t
  · intro Lab Act v
    simp [ListItem.Filtered]
  · intro Lab Ims v ih
    rw [leaves_filtered_list, leaves_list]
    exact sublist_flatMap_filter Ims _ _ _ (fun c hc _ => ih c hc)

theorem descendants_filtered_length_le (m : Int) (t : ListItem) :
    (t.Filtered m).descendants.length ≤ t.descendants.length := by
  refine menu_induct
    (fun t => (t.Filtered m).descendants.length ≤ t.descendants.length) ?_ ?_ t
  · intro Lab Act v
    simp [ListItem.Filtered]
  · intro Lab Ims v ih
    rw [descendants_filtered_list, descendants_list]
    apply length_flatMap_filter_le
    intro c hc _
    simp only [List.length_cons]
    exact Nat.succ_le_succ (ih c hc)

/-- C18: filtering only removes and never reorders or adds.  The left-to-right
sequence of items of the filtered copy is a subsequence of the left-to-right
sequence of items of the original, and the filtered copy has at most as many
nodes as the original. -/
theorem filtered_only_removes (t : ListItem) (m : Int) :
    (t.Filtered m).leaves.Sublist t.leaves ∧ (t.Filtered m).nodes.length ≤ t.nodes.length := by
  refine ⟨leaves_filtered_sublist_leaves m t, ?_⟩
  simp only [ListItem.nodes, List.length_cons]
  exact Nat.succ_le_succ (descendants_filtered_length_le m t)

/-! ## Visibility along paths -/

theorem paths_loop_eq (Ims : List ListItem) :
    ListItem.paths.loop Ims = Ims.flatMap ListItem.paths := by
  induction Ims with
  | nil => simp [ListItem.paths.loop]
  | cons i rest ih => simp [ListItem.paths.loop, ih]

theorem paths_list (Lab : String) (Ims : List ListItem) (v : Int) :
    (ListItem.list Lab Ims v).paths
      = (Ims.flatMap ListItem.paths).map (fun p => (ListItem.list Lab Ims v :: p.1, p.2)) := by
  simp only [ListItem.paths, paths_loop_eq]

/-- Every path of a menu ends in one of its leaves, which is an item. -/
theorem paths_snd_mem_leaves (t : ListItem) (p : List ListItem × ListItem)
    (hp : p ∈ t.paths) : p.2 ∈ t.leaves ∧ p.2.IsList = false := by
  revert p
  refine menu_induct
    (fun t => ∀ p : List ListItem × ListItem, p ∈ t.paths →
      p.2 ∈ t.leaves ∧ p.2.IsList = false) ?_ ?_ t
  · intro Lab Act v p hp
    simp only [ListItem.paths, List.mem_singleton] at hp
    subst hp
    simp [ListItem.leaves, ListItem.IsList]
  · intro Lab Ims v ih p hp
    rw [paths_list] at hp
    obtain ⟨q, hq, rfl⟩ := List.mem_map.mp hp
    obtain ⟨c, hc, hqc⟩ := List.mem_flatMap.mp hq
    have := ih c hc q hqc
    refine ⟨?_, this.2⟩
    rw [leaves_list]
    exact List.mem_flatMap.mpr ⟨c, hc, this.1⟩

/-- A node is visible exactly when one of its paths has every mask on it,
the mask of the item at its end included, meeting the bitmask. -/
theorem isVisible_iff_path (m : Int) (t : ListItem) :
    t.IsVisible m = true ↔
      ∃ p, p ∈ t.paths ∧ Int.land m p.2.visibility ≠ 0 ∧
        ∀ a ∈ p.1, Int.land m a.visibility ≠ 0 := by
  refine menu_induct
    (fun t => t.IsVisible m = true ↔
      ∃ p, p ∈ t.paths ∧ Int.land m p.2.visibility ≠ 0 ∧
        ∀ a ∈ p.1, Int.land m a.visibility ≠ 0) ?_ ?_ t
  · intro Lab Act v
    simp [ListItem.IsVisible, ListItem.paths, ListItem.visibility]
  · intro Lab Ims v ih
    rw [isVisible_list_iff, paths_list]
    constructor
    · rintro ⟨hv, c, hc, hvis⟩
      obtain ⟨p, hp, hleaf, hall⟩ := (ih c hc).mp hvis
      refine ⟨(ListItem.list Lab Ims v :: p.1, p.2), ?_, hleaf, ?_⟩
      · exact List.mem_map.mpr ⟨p, List.mem_flatMap.mpr ⟨c, hc, hp⟩, rfl⟩
      · intro a ha
        rcases List.mem_cons.mp ha with rfl | ha
        · simpa [ListItem.visibility] using hv
        · exact hall a ha
    · rintro ⟨p, hp, hleaf, hall⟩
      obtain ⟨q, hq, rfl⟩ := List.mem_map.mp hp
      obtain ⟨c, hc, hqc⟩ := List.mem_flatMap.mp hq
      have hv := hall (ListItem.list Lab Ims v) (List.mem_cons_self _ _)
      simp only [ListItem.visibility] at hv
      refine ⟨hv, c, hc, (ih c hc).mpr ⟨q, hqc, hleaf, ?_⟩⟩
      intro a ha
      exact hall a (List.mem_cons_of_mem _ ha)

/-- Every path of a menu is a chain of children that starts in the menu. -/
theorem paths_chain (t : ListItem) (p : List ListItem × ListItem) (hp : p ∈ t.paths) :
    (p.1 ++ [p.2]).head? = some t ∧
      List.Chain' (fun a b : ListItem => b ∈ a.Items) (p.1 ++ [p.2]) := by
  revert p
  refine menu_induct
    (fun t => ∀ p : List ListItem × ListItem, p ∈ t.paths →
      (p.1 ++ [p.2]).head? = some t ∧
        List.Chain' (fun a b : ListItem => b ∈ a.Items) (p.1 ++ [p.2])) ?_ ?_ t
  · intro Lab Act v p hp
    simp only [ListItem.paths, List.mem_singleton] at hp
    subst hp
    exact ⟨rfl, List.chain'_singleton _⟩
  · intro Lab Ims v ih p hp
    rw [paths_list] at hp
    obtain ⟨q, hq, rfl⟩ := List.mem_map.mp hp
    obtain ⟨c, hc, hqc⟩ := List.mem_flatMap.mp hq
    obtain ⟨hhead, hchain⟩ := ih c hc q hqc
    refine ⟨rfl, ?_⟩
    show List.Chain' _ (ListItem.list Lab Ims v :: (q.1 ++ [q.2]))
    apply List.Chain'.cons' hchain
    intro y hy
    rw [hhead] at hy
    cases hy
    exact hc

/-- A chain of children that ends in an item is visible at its start when
every mask on it meets the bitmask. -/
theorem isVisible_of_chain (m : Int) (leaf : ListItem) (hitem : leaf.IsList = false)
    (hleaf : Int.land m leaf.visibility ≠ 0) (l : List ListItem) :
    ∀ t : ListItem, (l ++ [leaf]).head? = some t →
      List.Chain' (fun a b : ListItem => b ∈ a.Items) (l ++ [leaf]) →
      (∀ a ∈ l, Int.land m a.visibility ≠ 0) → t.IsVisible m = true := by
  induction l with
  | nil =>
    intro t hhead _ _
    simp only [List.nil_append, List.head?_cons, Option.some.injEq] at hhead
    subst hhead
    cases leaf with
    | item Lab Act v => simpa [ListItem.IsVisible, ListItem.visibility] using hleaf
    | list Lab Ims v => simp [ListItem.IsList] at hitem
  | cons a rest ih =>
    intro t hhead hchain hall
    simp only [List.cons_append, List.head?_cons, Option.some.injEq] at hhead
    subst hhead
    rw [List.cons_append, List.chain'_cons'] at hchain
    obtain ⟨hstep, hrest⟩ := hchain
    cases hx : (rest ++ [leaf]).head? with
    | none => simp at hx
    | some x =>
      have hxvis := ih x hx hrest (fun b hb => hall b (List.mem_cons_of_mem _ hb))
      have hxa : x ∈ a.Items := hstep x (by rw [hx]; rfl)
      cases a with
      | item Lab Act v => simp [ListItem.Items] at hxa
      | list Lab Ims v =>
        have hv := hall (ListItem.list Lab Ims v) (List.mem_cons_self _ _)
        simp only [ListItem.visibility] at hv
        exact (isVisible_list_iff Lab Ims v m).mpr ⟨hv, x, hxa, hxvis⟩

/-- C19: path characterisation of visibility.  A list `g` is visible under `m`
if and only if there are lists `g = g₀, g₁, ..., gₖ`, each a child of the one
before, and an item that is a child of `gₖ`, such that the mask of the item and
the mask of every `gᵢ` all have a nonzero and with `m`. -/
theorem list_isVisible_iff_path (Lab : String) (Ims : List ListItem) (v m : Int) :
    (ListItem.list Lab Ims v).IsVisible m = true ↔
      ∃ (groups : List ListItem) (leaf : ListItem),
        leaf.IsList = false ∧
        (groups ++ [leaf]).head? = some (ListItem.list Lab Ims v) ∧
        List.Chain' (fun a b : ListItem => b ∈ a.Items) (groups ++ [leaf]) ∧
        Int.land m leaf.visibility ≠ 0 ∧
        (∀ a ∈ groups, Int.land m a.visibility ≠ 0) := by
  constructor
  · intro h
    obtain ⟨p, hp, hleaf, hall⟩ := (isVisible_iff_path m _).mp h
    obtain ⟨hhead, hchain⟩ := paths_chain _ p hp
    exact ⟨p.1, p.2, (paths_snd_mem_leaves _ p hp).2, hhead, hchain, hleaf, hall⟩
  · rintro ⟨groups, leaf, hitem, hhead, hchain, hleaf, hall⟩
    exact isVisible_of_chain m leaf hitem hleaf groups _ hhead hchain hall

/-! ## JSON export -/

/-- Induction over values: a property of every item and of every list with the
nil slice, that holds of a list whenever it holds of all its elements, holds of
every value. -/
theorem value_induct (P : Value → Prop)
    (hitem : ∀ Lab Act v, P (.item Lab Act v))
    (hnil : ∀ Lab v, P (.list Lab none v))
    (hlist : ∀ Lab elems v, (∀ c ∈ elems, P c) → P (.list Lab (some elems) v)) :
    ∀ g, P g := by
  intro g
  refine @Value.rec P (fun o => ∀ l, o = some l → ∀ c ∈ l, P c) (fun l => ∀ c ∈ l, P c)
    hitem ?_ ?_ ?_ ?_ ?_ g
  · intro Lab Ims v ih
    cases Ims with
    | none => exact hnil Lab v
    | some l => exact hlist Lab l v (ih l rfl)
  · intro l h
    cases h
  · intro val ih l h
    cases h
    exact ih
  · intro c hc
    cases hc
  · intro hd tl hhd htl c hc
    rcases List.mem_cons.mp hc with rfl | hc
    · exact hhd
    · exact htl c hc

theorem marshal_loop_eq (elems : List Value) : Marshal.loop elems = elems.map Marshal := by
  induction elems with
  | nil => simp [Marshal.loop]
  | cons i rest ih => simp [Marshal.loop, ih]

theorem ofListItem_loop_eq (Ims : List ListItem) :
    Value.ofListItem.loop Ims = Ims.map Value.ofListItem := by
  induction Ims with
  | nil => simp [Value.ofListItem.loop]
  | cons i rest ih => simp [Value.ofListItem.loop, ih]

theorem toListItem_loop_eq (elems : List Value) :
    Value.toListItem.loop elems = elems.map Value.toListItem := by
  induction elems with
  | nil => simp [Value.toListItem.loop]
  | cons i rest ih => simp [Value.toListItem.loop, ih]

/-- A menu is the menu that its value stands for. -/
theorem toListItem_ofListItem (t : ListItem) : (Value.ofListItem t).toListItem = t := by
  refine menu_induct (fun t => (Value.ofListItem t).toListItem = t) ?_ ?_ t
  · intro Lab Act v
    simp [Value.ofListItem, Value.toListItem]
  · intro Lab Ims v ih
    simp only [Value.ofListItem, Value.toListItem, Value.toListItem.slice, ofListItem_loop_eq,
      toListItem_loop_eq, List.map_map]
    congr 1
    calc Ims.map (Value.toListItem ∘ Value.ofListItem)
        = Ims.map id := List.map_congr_left (fun c hc => ih c hc)
      _ = Ims := List.map_id Ims

theorem keys_arr_eq (elems : List JSON) : JSON.keys.arr elems = elems.flatMap JSON.keys := by
  induction elems with
  | nil => simp [JSON.keys.arr]
  | cons e rest ih => simp [JSON.keys.arr, ih]

theorem marshal_item (Lab Act : String) (v : Int) :
    Marshal (.item Lab Act v) = .obj [("label", .str Lab), ("action", .str Act)] := by
  simp [Marshal, marshalStruct, Field.exported, Field.key]

theorem marshal_list_some (Lab : String) (elems : List Value) (v : Int) :
    Marshal (.list Lab (some elems) v)
      = .obj [("label", .str Lab), ("items", .arr (elems.map Marshal))] := by
  simp [Marshal, Marshal.slice, marshalStruct, Field.exported, Field.key, marshal_loop_eq]

theorem marshal_list_nil (Lab : String) (v : Int) :
    Marshal (.list Lab none v) = .obj [("label", .str Lab), ("items", .null)] := by
  simp [Marshal, Marshal.slice, marshalStruct, Field.exported, Field.key]

/-- The export of the menu of `ExampleListItem_jSON`, filtered with `0x80`, is
the value printed in the expected output of that example. -/
theorem marshal_example :
    Marshal (Value.ofListItem ((NewList ""
        [NewItem "About" "/about",
         NewList "Locations"
           [NewItem "Berlin" "/locations/Berlin", NewItem "Seoul" "/locations/Seoul"],
         NewItemMask "Admin" "/admin" 128,
         NewItemMask "FAQ" "/faq" 1]).Filtered 128))
      = .obj [("label", .str ""),
          ("items", .arr
            [.obj [("label", .str "About"), ("action", .str "/about")],
             .obj [("label", .str "Locations"),
               ("items", .arr
                 [.obj [("label", .str "Berlin"), ("action", .str "/locations/Berlin")],
                  .obj [("label", .str "Seoul"), ("action", .str "/locations/Seoul")]])],
             .obj [("label", .str "Admin"), ("action", .str "/admin")]])] := by
  have e1 : Int.land 128 128 = 128 := by decide
  have e2 : Int.land 128 1 = 0 := by decide
  simp [NewList, NewItem, NewItemMask, ListItem.Filtered, ListItem.Filtered.loop,
    ListItem.IsVisible, ListItem.IsVisible.loop, land_neg_one, e1, e2, marshal_item,
    marshal_list_some, Value.ofListItem, Value.ofListItem.loop]

theorem marshal_keys (g : Value) :
    ∀ k ∈ (Marshal g).keys, k = "label" ∨ k = "action" ∨ k = "items" := by
  refine value_induct
    (fun g => ∀ k ∈ (Marshal g).keys, k = "label" ∨ k = "action" ∨ k = "items") ?_ ?_ ?_ g
  · intro Lab Act v k hk
    rw [marshal_item] at hk
    simp [JSON.keys, JSON.keys.obj] at hk
    rcases hk with h | h
    · exact Or.inl h
    · exact Or.inr (Or.inl h)
  · intro Lab v k hk
    rw [marshal_list_nil] at hk
    simp [JSON.keys, JSON.keys.obj] at hk
    rcases hk with h | h
    · exact Or.inl h
    · exact Or.inr (Or.inr h)
  · intro Lab elems v ih k hk
    rw [marshal_list_some] at hk
    simp only [JSON.keys, JSON.keys.obj, keys_arr_eq, List.nil_append, List.append_nil,
      List.mem_cons, List.mem_flatMap, List.mem_map] at hk
    rcases hk with h | h | ⟨e, ⟨c, hc, rfl⟩, hke⟩
    · exact Or.inl h
    · exact Or.inr (Or.inr h)
    · exact ih c hc k hke

/-- C16, as stated, fails on the code: `NewList` stores the slice it is given,
and for the nil slice `json.Marshal` writes `null` under `items`, not the
sequence of the (zero) exported children.  For `NewList("x", nil)` the export
is the object with `label` = `"x"` and `items` = `null`. -/
theorem marshal_nil_counterexample :
    Marshal (Value.NewList "x" none) = .obj [("label", .str "x"), ("items", .null)] ∧
    (Value.NewList "x" none).toListItem.Items = [] ∧
    Marshal (Value.NewList "x" none) ≠ .obj [("label", .str "x"), ("items", .arr [])] := by
  refine ⟨?_, ?_, ?_⟩
  · simp [Value.NewList, marshal_list_nil]
  · simp [Value.NewList, Value.toListItem, Value.toListItem.slice, ListItem.Items]
  · simp [Value.NewList, marshal_list_nil]

/-- C16, amended: an item exports to an object with exactly the two keys
`label` and `action`, in this order; a list exports to an object with `label`
followed by `items`, which holds the exports of the children in their original
order when the slice of the list is not nil and is `null` when it is nil; no
key other than these three, and so no visibility mask field, occurs at any
depth. -/
theorem marshal_reference :
    (∀ (Lab Act : String) (v : Int),
        Marshal (.item Lab Act v) = .obj [("label", .str Lab), ("action", .str Act)]) ∧
    (∀ (Lab : String) (elems : List Value) (v : Int),
        Marshal (.list Lab (some elems) v)
          = .obj [("label", .str Lab), ("items", .arr (elems.map Marshal))]) ∧
    (∀ (Lab : String) (v : Int),
        Marshal (.list Lab none v) = .obj [("label", .str Lab), ("items", .null)]) ∧
    (∀ (g : Value) (k : String),
        k ∈ (Marshal g).keys → k = "label" ∨ k = "action" ∨ k = "items") ∧
    (∀ g : Value, "visibility" ∉ (Marshal g).keys) := by
  refine ⟨marshal_item, marshal_list_some, marshal_list_nil,
    fun g k hk => marshal_keys g k hk, ?_⟩
  intro g hk
  rcases marshal_keys g _ hk with h | h | h <;> exact absurd h (by decide)

/-- Witness for the amended C16 on the item `About` of `example_test.go`: the
key `label` occurs in its export and is one of the three keys. -/
theorem marshal_reference_witness :
    "label" ∈ (Marshal (Value.NewItem "About" "/about")).keys ∧
    ("label" = "label" ∨ "label" = "action" ∨ "label" = "items") :=
  have hmem : "label" ∈ (Marshal (Value.NewItem "About" "/about")).keys := by
    simp [Value.NewItem, marshal_item, JSON.keys, JSON.keys.obj]
  ⟨hmem, marshal_reference.2.2.2.1 _ _ hmem⟩

end menu
